import Mathlib

/-!
# Verification of `syn_util`

A shallow embedding of the `syn_util` crate (files `src/lib.rs` and
`src/lit_cast.rs`) together with proofs about its three public query
functions (`contains_attribute`, `get_attribute_value`,
`get_attribute_map`) and the `FromLit` coercion layer.

The crate operates on `syn`'s attribute metadata.  The relevant parts of
that (external) data model are embedded here:

* `Lit` mirrors `syn::Lit` (string, byte string, byte, char, integer,
  float, boolean and verbatim literals).  An integer literal carries the
  mathematical value of its base-10 digits (always a natural number: a
  Rust integer-literal token has no sign); a float literal carries its
  digit string.
* `Meta` / `NestedMeta` mirror `syn::Meta` and `syn::NestedMeta`: a meta
  item is a bare word `ident`, a list `ident(...)` of nested items, or a
  name-value pair `ident = lit`; a nested item is a meta item or a bare
  literal.  Identifiers are embedded as strings; `ident == id[0]`
  comparisons in the source compare the identifier's name to the query
  string.
* An `Attribute` is embedded by its style (outer `#[...]` or inner
  `#![...]`) together with the result of `syn`'s
  `Attribute::interpret_meta` on it: `some meta` when the attribute's
  tokens can be interpreted as a `Meta`, `none` otherwise.  The token
  parsing itself lives in the external `syn` crate, not in this
  repository, so the interpreted result is taken as the input.
* Rust's `HashMap<String, Vec<Lit>>` is embedded as an association list
  with at most one binding per key (`LitMap`); the code only ever uses
  point lookups, insertion and in-place update, never iteration, so the
  association-list embedding is faithful.
* A Rust `panic!`/`assert!` failure is embedded as `Except.error` with
  the panic message; the `Except` monad propagates it, matching a Rust
  panic aborting the whole call.
-/

/-- Decidable equality for `Except`, used to evaluate the map-building
functions on concrete inputs. -/
instance {ε : Type u} {α : Type v} [DecidableEq ε] [DecidableEq α] :
    DecidableEq (Except ε α) := fun a b =>
  match a, b with
  | Except.ok x, Except.ok y =>
    if h : x = y then Decidable.isTrue (by rw [h])
    else Decidable.isFalse (by simp [h])
  | Except.error x, Except.error y =>
    if h : x = y then Decidable.isTrue (by rw [h])
    else Decidable.isFalse (by simp [h])
  | Except.ok _, Except.error _ => Decidable.isFalse (by simp)
  | Except.error _, Except.ok _ => Decidable.isFalse (by simp)

namespace SynUtil

/-- `syn::Lit`, the literal kinds of the `syn` data model used by the crate. -/
inductive Lit where
  | str (value : String)
  | byteStr (value : List Nat)
  | byte (value : Nat)
  | char (value : Char)
  | int (value : Nat)
  | float (digits : String)
  | bool (value : Bool)
  | verbatim (tok : String)
deriving DecidableEq

/-- `syn::AttrStyle`: outer `#[...]` or inner `#![...]`. -/
inductive AttrStyle where
  | outer
  | inner
deriving DecidableEq

mutual
/-- `syn::Meta`: a word `ident`, a list `ident(nested, ...)`, or a
name-value pair `ident = lit`. -/
inductive Meta where
  | word (ident : String)
  | list (ident : String) (nested : List NestedMeta)
  | nameValue (ident : String) (lit : Lit)

/-- `syn::NestedMeta`: an item inside a meta list. -/
inductive NestedMeta where
  | meta (m : Meta)
  | literal (l : Lit)
end

/-- A `syn::Attribute`, embedded by its style together with the result of
`Attribute::interpret_meta()` on it (`none` when the attribute's tokens
cannot be interpreted as a `Meta`). -/
structure Attribute where
  style : AttrStyle
  meta : Option Meta

mutual
/-- `contains_attribute_impl` from `src/lib.rs` (lines 30-49): an empty
path never matches; a word matches a singleton path equal to its ident;
a list whose ident equals the path head matches if some nested meta item
matches the path tail; a name-value pair never matches. -/
def contains_attribute_impl (meta : Meta) (id : List String) : Bool :=
  match id with
  | [] => false
  | i0 :: rest =>
    match meta with
    | .word ident => rest.isEmpty && (ident == i0)
    | .list ident nested => (ident == i0) && containsNested nested rest
    | .nameValue _ _ => false

/-- The `for nested_meta in &meta_list.nested` loop of
`contains_attribute_impl`: scan the nested items left to right, recursing
into meta items and skipping bare literals, returning at the first match. -/
def containsNested (nested : List NestedMeta) (id : List String) : Bool :=
  match nested with
  | [] => false
  | .meta m :: rest => contains_attribute_impl m id || containsNested rest id
  | .literal _ :: rest => containsNested rest id
end

/-- `contains_attribute` from `src/lib.rs` (lines 14-28): scan the
attributes first to last, skipping non-outer attributes and attributes
whose meta cannot be interpreted, and return true at the first attribute
whose meta matches the path. -/
def contains_attribute (attrs : List Attribute) (id : List String) : Bool :=
  match attrs with
  | [] => false
  | attr :: rest =>
    (if attr.style = AttrStyle.outer then
      match attr.meta with
      | some meta => contains_attribute_impl meta id
      | none => false
     else false) || contains_attribute rest id

mutual
/-- `get_attribute_value_impl` from `src/lib.rs` (lines 67-89): an empty
path yields nothing; a name-value pair whose ident equals the path head
yields its literal (regardless of any remaining path elements); a list
whose ident equals the path head yields the first value found among its
nested meta items against the path tail; anything else yields nothing. -/
def get_attribute_value_impl (meta : Meta) (id : List String) : Option Lit :=
  match id with
  | [] => none
  | i0 :: rest =>
    match meta with
    | .nameValue ident lit => if ident == i0 then some lit else none
    | .list ident nested =>
      if ident == i0 then getValueNested nested rest else none
    | .word _ => none

/-- The `for nested_meta in &meta_list.nested` loop of
`get_attribute_value_impl`: scan left to right, recursing into meta items
and skipping bare literals, returning the first `some` result. -/
def getValueNested (nested : List NestedMeta) (id : List String) : Option Lit :=
  match nested with
  | [] => none
  | .meta m :: rest =>
    match get_attribute_value_impl m id with
    | some v => some v
    | none => getValueNested rest id
  | .literal _ :: rest => getValueNested rest id
end

/-- `get_attribute_value` from `src/lib.rs` (lines 51-65): scan the
attributes first to last, skipping non-outer attributes and attributes
whose meta cannot be interpreted, and return the first value found. -/
def get_attribute_value (attrs : List Attribute) (id : List String) : Option Lit :=
  match attrs with
  | [] => none
  | attr :: rest =>
    match
      (if attr.style = AttrStyle.outer then
        match attr.meta with
        | some meta => get_attribute_value_impl meta id
        | none => none
       else none) with
    | some v => some v
    | none => get_attribute_value rest id

/-- `HashMap<String, Vec<Lit>>`, embedded as an association list with at
most one binding per key.  The code only performs point lookups,
insertions and in-place updates on the map, never iteration, so this
embedding is faithful. -/
abbrev LitMap := List (String × List Lit)

/-- `HashMap` lookup (`get`/`get_mut`): the value bound to `k`, if any. -/
def mapFind (map : LitMap) (k : String) : Option (List Lit) :=
  match map with
  | [] => none
  | (k', v) :: rest => if k' = k then some v else mapFind rest k

/-- `HashMap::contains_key`. -/
def mapContains (map : LitMap) (k : String) : Bool :=
  (mapFind map k).isSome

/-- `HashMap::insert` (also used for an in-place `push` through
`get_mut`): bind `k` to `v`, replacing any existing binding. -/
def mapInsert (map : LitMap) (k : String) (v : List Lit) : LitMap :=
  match map with
  | [] => [(k, v)]
  | (k', v') :: rest =>
    if k' = k then (k, v) :: rest else (k', v') :: mapInsert rest k v

/-- The key computation repeated in every arm of
`get_attribute_map_impl`: `ident` when the prefix is empty, otherwise
`format!("{}{}{}", prefix, separator, ident)`. -/
def keyOf (pre sep ident : String) : String :=
  if pre = "" then ident else pre ++ sep ++ ident

mutual
/-- `get_attribute_map_impl` from `src/lib.rs` (lines 107-153).  A word
inserts an empty vector under its flattened key, asserting the key is
absent; a name-value pair appends its literal to the key's vector,
asserting the vector is non-empty when the key is present; a list
recurses into its nested meta items with the extended prefix.  A failed
`assert!` is a Rust panic, embedded as `Except.error` carrying the panic
message. -/
def get_attribute_map_impl (map : LitMap) (meta : Meta) (pre sep : String) :
    Except String LitMap :=
  match meta with
  | .word ident =>
    let key := keyOf pre sep ident
    if mapContains map key then Except.error (key ++ " already exists.")
    else Except.ok (mapInsert map key [])
  | .nameValue ident lit =>
    let key := keyOf pre sep ident
    match mapFind map key with
    | some value =>
      if value.isEmpty then
        Except.error ("conflicts among `" ++ key ++ "` attributes.")
      else Except.ok (mapInsert map key (value ++ [lit]))
    | none => Except.ok (mapInsert map key [lit])
  | .list ident nested =>
    gamNested map nested (keyOf pre sep ident) sep

/-- The `for nested_meta in &meta_list.nested` loop of
`get_attribute_map_impl`: thread the map through the nested meta items
left to right, skipping bare literals; a panic aborts the whole walk. -/
def gamNested (map : LitMap) (nested : List NestedMeta) (pre sep : String) :
    Except String LitMap :=
  match nested with
  | [] => Except.ok map
  | .meta m :: rest =>
    match get_attribute_map_impl map m pre sep with
    | Except.ok map' => gamNested map' rest pre sep
    | Except.error e => Except.error e
  | .literal _ :: rest => gamNested map rest pre sep
end

/-- The attribute loop of `get_attribute_map` (`src/lib.rs` lines
91-105): thread the map through the outer, interpretable attributes with
the empty prefix. -/
def gamAttrs (map : LitMap) (attrs : List Attribute) (sep : String) :
    Except String LitMap :=
  match attrs with
  | [] => Except.ok map
  | attr :: rest =>
    if attr.style = AttrStyle.outer then
      match attr.meta with
      | some meta =>
        match get_attribute_map_impl map meta "" sep with
        | Except.ok map' => gamAttrs map' rest sep
        | Except.error e => Except.error e
      | none => gamAttrs map rest sep
    else gamAttrs map rest sep

/-- `get_attribute_map` from `src/lib.rs` (lines 91-105): fold the
attributes into an initially empty map. -/
def get_attribute_map (attrs : List Attribute) (sep : String) :
    Except String LitMap :=
  gamAttrs [] attrs sep

/-! ## `src/lit_cast.rs`: the `FromLit` coercion layer -/

/-- `CastError` from `src/lit_cast.rs`. -/
inductive CastError where
  | mk
deriving DecidableEq

/-- `impl FromLit for Lit`: the identity coercion, always succeeds. -/
def lit_from_lit (lit : Lit) : Except CastError Lit :=
  Except.ok lit

/-- `impl FromLit for u64`: succeeds on an integer literal whose
base-10 value fits in a `u64` (`LitInt::base10_parse::<u64>` returns
`Err` exactly on overflow, since an integer-literal token is an unsigned
digit string); any other literal kind is a `CastError`. -/
def u64_from_lit (lit : Lit) : Except CastError Nat :=
  match lit with
  | .int n => if n < 2 ^ 64 then Except.ok n else Except.error CastError.mk
  | _ => Except.error CastError.mk

/-- `impl FromLit for f64`: succeeds exactly on a float literal
(`LitFloat::base10_parse::<f64>` calls `f64::from_str` on the digit
string of a valid float-literal token, which always succeeds — overflow
merely yields an infinite value); any other literal kind is a
`CastError`.  The parsed value is kept as the digit string, since IEEE
rounding is outside this embedding. -/
def f64_from_lit (lit : Lit) : Except CastError String :=
  match lit with
  | .float digits => Except.ok digits
  | _ => Except.error CastError.mk

/-- `impl FromLit for bool`: succeeds exactly on a boolean literal. -/
def bool_from_lit (lit : Lit) : Except CastError Bool :=
  match lit with
  | .bool b => Except.ok b
  | _ => Except.error CastError.mk

/-- `impl FromLit for String`: succeeds exactly on a string literal. -/
def string_from_lit (lit : Lit) : Except CastError String :=
  match lit with
  | .str s => Except.ok s
  | _ => Except.error CastError.mk

/-! ## Specification-side projections

These definitions restate the walks above declaratively so that claims
about "declaration order", "first match" and "flattened keys" can be
stated; each mirrors the corresponding walk's traversal order. -/

mutual
/-- All literals of annotations matching `id` inside `meta`, in the
traversal order of `get_attribute_value_impl` (nested items left to
right, depth first). -/
def matchedLits (meta : Meta) (id : List String) : List Lit :=
  match id with
  | [] => []
  | i0 :: rest =>
    match meta with
    | .nameValue ident lit => if ident == i0 then [lit] else []
    | .list ident nested =>
      if ident == i0 then matchedLitsNested nested rest else []
    | .word _ => []

/-- `matchedLits` over a nested item list, left to right. -/
def matchedLitsNested (nested : List NestedMeta) (id : List String) : List Lit :=
  match nested with
  | [] => []
  | .meta m :: rest => matchedLits m id ++ matchedLitsNested rest id
  | .literal _ :: rest => matchedLitsNested rest id
end

/-- All literals of annotations matching `id` across the attribute list,
in declaration order (attributes first to last, skipping non-outer and
uninterpretable ones). -/
def attrsMatchedLits (attrs : List Attribute) (id : List String) : List Lit :=
  match attrs with
  | [] => []
  | attr :: rest =>
    (if attr.style = AttrStyle.outer then
      match attr.meta with
      | some meta => matchedLits meta id
      | none => []
     else []) ++ attrsMatchedLits rest id

mutual
/-- The flattened `(key, payload)` entries that the
`get_attribute_map_impl` walk of `meta` processes, in walk order: a word
contributes `(key, none)`, a name-value pair `(key, some lit)`, a list
the entries of its nested meta items under the extended prefix. -/
def metaEntries (meta : Meta) (pre sep : String) : List (String × Option Lit) :=
  match meta with
  | .word ident => [(keyOf pre sep ident, none)]
  | .nameValue ident lit => [(keyOf pre sep ident, some lit)]
  | .list ident nested => nestedEntries nested (keyOf pre sep ident) sep

/-- `metaEntries` over a nested item list, left to right. -/
def nestedEntries (nested : List NestedMeta) (pre sep : String) :
    List (String × Option Lit) :=
  match nested with
  | [] => []
  | .meta m :: rest => metaEntries m pre sep ++ nestedEntries rest pre sep
  | .literal _ :: rest => nestedEntries rest pre sep
end

/-- The flattened entries of the whole attribute list, in the walk order
of `get_attribute_map`. -/
def attrsEntries (attrs : List Attribute) (sep : String) :
    List (String × Option Lit) :=
  match attrs with
  | [] => []
  | attr :: rest =>
    (if attr.style = AttrStyle.outer then
      match attr.meta with
      | some meta => metaEntries meta "" sep
      | none => []
     else []) ++ attrsEntries rest sep

/-- One step of the map-building fold, on a single flattened entry:
exactly the word / name-value arms of `get_attribute_map_impl`. -/
def stepEntry (map : LitMap) (e : String × Option Lit) : Except String LitMap :=
  match e with
  | (key, none) =>
    if mapContains map key then Except.error (key ++ " already exists.")
    else Except.ok (mapInsert map key [])
  | (key, some lit) =>
    match mapFind map key with
    | some value =>
      if value.isEmpty then
        Except.error ("conflicts among `" ++ key ++ "` attributes.")
      else Except.ok (mapInsert map key (value ++ [lit]))
    | none => Except.ok (mapInsert map key [lit])

/-- Fold `stepEntry` over a list of flattened entries, aborting at the
first panic. -/
def processEntries (map : LitMap) (es : List (String × Option Lit)) :
    Except String LitMap :=
  match es with
  | [] => Except.ok map
  | e :: rest =>
    match stepEntry map e with
    | Except.ok map' => processEntries map' rest
    | Except.error err => Except.error err

/-- The literals carried by the valued entries of key `k`, in entry
order. -/
def valsFor (es : List (String × Option Lit)) (k : String) : List Lit :=
  es.filterMap (fun e => if e.1 = k then e.2 else none)

mutual
/-- The nesting depth of a meta item (a word or name-value pair has
depth 1; a list is one deeper than its deepest nested meta item). -/
def metaDepth (meta : Meta) : Nat :=
  match meta with
  | .word _ => 1
  | .nameValue _ _ => 1
  | .list _ nested => nsDepth nested + 1

/-- The depth of the deepest meta item in a nested item list. -/
def nsDepth (nested : List NestedMeta) : Nat :=
  match nested with
  | [] => 0
  | .meta m :: rest => max (metaDepth m) (nsDepth rest)
  | .literal _ :: rest => nsDepth rest
end

/-! ## Fuel-bounded variants

Each recursive walk, re-expressed with an explicit step budget that
shrinks at every descent into a child meta item; `none` means the budget
ran out.  That a budget equal to the tree's nesting depth always
suffices (proved below) is the termination argument for the walks. -/

mutual
/-- `contains_attribute_impl` with a step budget. -/
def containsFuel (fuel : Nat) (meta : Meta) (id : List String) : Option Bool :=
  match fuel with
  | 0 => none
  | fuel + 1 =>
    match id with
    | [] => some false
    | i0 :: rest =>
      match meta with
      | .word ident => some (rest.isEmpty && (ident == i0))
      | .list ident nested =>
        if ident == i0 then containsFuelList fuel nested rest else some false
      | .nameValue _ _ => some false

/-- The nested-item loop of `containsFuel`. -/
def containsFuelList (fuel : Nat) (nested : List NestedMeta) (id : List String) :
    Option Bool :=
  match nested with
  | [] => some false
  | .meta m :: rest =>
    match containsFuel fuel m id with
    | none => none
    | some true => some true
    | some false => containsFuelList fuel rest id
  | .literal _ :: rest => containsFuelList fuel rest id
end

mutual
/-- `get_attribute_value_impl` with a step budget. -/
def getValueFuel (fuel : Nat) (meta : Meta) (id : List String) :
    Option (Option Lit) :=
  match fuel with
  | 0 => none
  | fuel + 1 =>
    match id with
    | [] => some none
    | i0 :: rest =>
      match meta with
      | .nameValue ident lit => some (if ident == i0 then some lit else none)
      | .list ident nested =>
        if ident == i0 then getValueFuelList fuel nested rest else some none
      | .word _ => some none

/-- The nested-item loop of `getValueFuel`. -/
def getValueFuelList (fuel : Nat) (nested : List NestedMeta) (id : List String) :
    Option (Option Lit) :=
  match nested with
  | [] => some none
  | .meta m :: rest =>
    match getValueFuel fuel m id with
    | none => none
    | some (some v) => some (some v)
    | some none => getValueFuelList fuel rest id
  | .literal _ :: rest => getValueFuelList fuel rest id
end

mutual
/-- `get_attribute_map_impl` with a step budget. -/
def getMapFuel (fuel : Nat) (map : LitMap) (meta : Meta) (pre sep : String) :
    Option (Except String LitMap) :=
  match fuel with
  | 0 => none
  | fuel + 1 =>
    match meta with
    | .word ident =>
      let key := keyOf pre sep ident
      some (if mapContains map key then Except.error (key ++ " already exists.")
            else Except.ok (mapInsert map key []))
    | .nameValue ident lit =>
      let key := keyOf pre sep ident
      some (match mapFind map key with
            | some value =>
              if value.isEmpty then
                Except.error ("conflicts among `" ++ key ++ "` attributes.")
              else Except.ok (mapInsert map key (value ++ [lit]))
            | none => Except.ok (mapInsert map key [lit]))
    | .list ident nested =>
      getMapFuelList fuel map nested (keyOf pre sep ident) sep

/-- The nested-item loop of `getMapFuel`. -/
def getMapFuelList (fuel : Nat) (map : LitMap) (nested : List NestedMeta)
    (pre sep : String) : Option (Except String LitMap) :=
  match nested with
  | [] => some (Except.ok map)
  | .meta m :: rest =>
    match getMapFuel fuel map m pre sep with
    | none => none
    | some (Except.error e) => some (Except.error e)
    | some (Except.ok map') => getMapFuelList fuel map' rest pre sep
  | .literal _ :: rest => getMapFuelList fuel map rest pre sep
end

/-- A single annotation shaped as a pure nesting chain ending in a bare
word: `chainWord [i₁, ..., iₖ] w` is the meta item `i₁(i₂(...(w)...))`.
Its ident sequence, root to leaf, is `[i₁, ..., iₖ, w]`.  The spec's
examples `a(b)` and `a(b(c))` are `chainWord ["a"] "b"` and
`chainWord ["a", "b"] "c"`. -/
def chainWord : List String → String → Meta
  | [], w => Meta.word w
  | i :: rest, w => Meta.list i [NestedMeta.meta (chainWord rest w)]

/-- A single annotation shaped as a pure nesting chain ending in a
name-value entry: `chainValue [i₁, ..., iₖ] i l` is the meta item
`i₁(i₂(...(i = l)...))`.  The spec's example `a(b = v)` is
`chainValue ["a"] "b" v`. -/
def chainValue : List String → String → Lit → Meta
  | [], i, l => Meta.nameValue i l
  | j :: rest, i, l => Meta.list j [NestedMeta.meta (chainValue rest i l)]

/-! ## Basic lemmas -/

theorem mapFind_insert_self (map : LitMap) (k : String) (v : List Lit) :
    mapFind (mapInsert map k v) k = some v := by
  induction map with
  | nil => simp [mapInsert, mapFind]
  | cons e rest ih =>
    obtain ⟨k', v'⟩ := e
    by_cases h : k' = k
    · subst h
      simp [mapInsert, mapFind]
    · simp [mapInsert, mapFind, h, ih]

theorem mapFind_insert_ne (map : LitMap) (k k' : String) (v : List Lit)
    (h : k' ≠ k) : mapFind (mapInsert map k v) k' = mapFind map k' := by
  have hk : ¬ k = k' := fun h' => h h'.symm
  induction map with
  | nil =>
    simp only [mapInsert, mapFind]
    rw [if_neg hk]
  | cons e rest ih =>
    obtain ⟨k₀, v₀⟩ := e
    by_cases h₀ : k₀ = k
    · subst h₀
      simp only [mapInsert, if_pos rfl, mapFind]
      rw [if_neg hk, if_neg hk]
    · simp only [mapInsert, if_neg h₀, mapFind]
      by_cases h₁ : k₀ = k'
      · rw [if_pos h₁, if_pos h₁]
      · rw [if_neg h₁, if_neg h₁, ih]

theorem contains_attribute_impl_nil (meta : Meta) :
    contains_attribute_impl meta [] = false := by
  cases meta <;> simp [contains_attribute_impl]

theorem containsNested_nil (nested : List NestedMeta) :
    containsNested nested [] = false := by
  induction nested with
  | nil => simp [containsNested]
  | cons hd rest ih =>
    cases hd with
    | meta m => simp [containsNested, contains_attribute_impl_nil, ih]
    | literal l => simp [containsNested, ih]

theorem containsNested_iff (nested : List NestedMeta) (id : List String) :
    containsNested nested id = true ↔
      ∃ m, NestedMeta.meta m ∈ nested ∧ contains_attribute_impl m id = true := by
  induction nested with
  | nil => simp [containsNested]
  | cons hd rest ih =>
    cases hd with
    | meta m =>
      simp only [containsNested, Bool.or_eq_true, ih]
      constructor
      · rintro (h | ⟨m', hm', h'⟩)
        · exact ⟨m, List.mem_cons_self _ _, h⟩
        · exact ⟨m', List.mem_cons_of_mem _ hm', h'⟩
      · rintro ⟨m', hm', h'⟩
        rcases List.mem_cons.mp hm' with h | h
        · injection h with h₂
          subst h₂
          exact Or.inl h'
        · exact Or.inr ⟨m', h, h'⟩
    | literal l =>
      simp only [containsNested, ih]
      constructor
      · rintro ⟨m', hm', h'⟩
        exact ⟨m', List.mem_cons_of_mem _ hm', h'⟩
      · rintro ⟨m', hm', h'⟩
        rcases List.mem_cons.mp hm' with h | h
        · exact absurd h (by simp)
        · exact ⟨m', h, h'⟩

theorem contains_impl_singleton_iff (meta : Meta) (x : String) :
    contains_attribute_impl meta [x] = true ↔ meta = Meta.word x := by
  cases meta with
  | word ident =>
    rw [show contains_attribute_impl (Meta.word ident) [x] = (ident == x) from rfl]
    simp only [beq_iff_eq, Meta.word.injEq]
  | list ident nested =>
    rw [show contains_attribute_impl (Meta.list ident nested) [x]
          = ((ident == x) && containsNested nested []) from rfl,
        containsNested_nil]
    simp
  | nameValue ident lit =>
    rw [show contains_attribute_impl (Meta.nameValue ident lit) [x] = false from rfl]
    simp

theorem contains_attribute_iff (attrs : List Attribute) (id : List String) :
    contains_attribute attrs id = true ↔
      ∃ attr ∈ attrs, attr.style = AttrStyle.outer ∧
        ∃ m, attr.meta = some m ∧ contains_attribute_impl m id = true := by
  induction attrs with
  | nil => simp [contains_attribute]
  | cons attr rest ih =>
    simp only [contains_attribute, Bool.or_eq_true, ih]
    constructor
    · rintro (h | ⟨a, ha, hs, m, hm, h⟩)
      · refine ⟨attr, List.mem_cons_self _ _, ?_⟩
        by_cases hs : attr.style = AttrStyle.outer
        · rw [if_pos hs] at h
          cases hmeta : attr.meta with
          | none => rw [hmeta] at h; exact absurd h (by simp)
          | some m => rw [hmeta] at h; exact ⟨hs, m, rfl, h⟩
        · rw [if_neg hs] at h; exact absurd h (by simp)
      · exact ⟨a, List.mem_cons_of_mem _ ha, hs, m, hm, h⟩
    · rintro ⟨a, ha, hs, m, hm, h⟩
      rcases List.mem_cons.mp ha with h' | h'
      · subst h'
        exact Or.inl (by rw [if_pos hs, hm]; exact h)
      · exact Or.inr ⟨a, h', hs, m, hm, h⟩

theorem contains_impl_two_iff (meta : Meta) (b c : String) :
    contains_attribute_impl meta [b, c] = true ↔
      ∃ ns, meta = Meta.list b ns ∧ NestedMeta.meta (Meta.word c) ∈ ns := by
  cases meta with
  | word ident =>
    rw [show contains_attribute_impl (Meta.word ident) [b, c] = false from rfl]
    simp
  | list ident nested =>
    rw [show contains_attribute_impl (Meta.list ident nested) [b, c]
          = ((ident == b) && containsNested nested [c]) from rfl]
    simp only [Bool.and_eq_true, beq_iff_eq, containsNested_iff,
      contains_impl_singleton_iff]
    constructor
    · rintro ⟨hb, m, hm, hw⟩
      subst hb
      subst hw
      exact ⟨nested, rfl, hm⟩
    · rintro ⟨ns, hns, hmem⟩
      injection hns with h₁ h₂
      subst h₁
      subst h₂
      exact ⟨rfl, Meta.word c, hmem, rfl⟩
  | nameValue ident lit =>
    rw [show contains_attribute_impl (Meta.nameValue ident lit) [b, c] = false from rfl]
    simp

theorem contains_impl_three_iff (meta : Meta) (a b c : String) :
    contains_attribute_impl meta [a, b, c] = true ↔
      ∃ ns₁, meta = Meta.list a ns₁ ∧
        ∃ ns₂, NestedMeta.meta (Meta.list b ns₂) ∈ ns₁ ∧
          NestedMeta.meta (Meta.word c) ∈ ns₂ := by
  cases meta with
  | word ident =>
    rw [show contains_attribute_impl (Meta.word ident) [a, b, c] = false from rfl]
    simp
  | list ident nested =>
    rw [show contains_attribute_impl (Meta.list ident nested) [a, b, c]
          = ((ident == a) && containsNested nested [b, c]) from rfl]
    simp only [Bool.and_eq_true, beq_iff_eq, containsNested_iff,
      contains_impl_two_iff]
    constructor
    · rintro ⟨ha, m, hm, ns₂, hlist, hw⟩
      subst ha
      subst hlist
      exact ⟨nested, rfl, ns₂, hm, hw⟩
    · rintro ⟨ns₁, hns, ns₂, hmem, hw⟩
      injection hns with h₁ h₂
      subst h₁
      subst h₂
      exact ⟨rfl, Meta.list b ns₂, hmem, ns₂, rfl, hw⟩
  | nameValue ident lit =>
    rw [show contains_attribute_impl (Meta.nameValue ident lit) [a, b, c] = false from rfl]
    simp

/-- **C1** (corrected): the claim asserts that the name-value form
`a(b = c)` is matched by the three-element path `[a, b, c]` in
`contains_attribute`.  It is not: `contains_attribute_impl` returns
`false` on every `Meta::NameValue`, so the attribute `#[a(b = "c")]`
queried with `["a", "b", "c"]` yields `false` (the repository's own test
asserts exactly this for `level2_1 = "hello"`). -/
theorem claim_C1_counterexample :
    contains_attribute [Attribute.mk AttrStyle.outer
        (some (Meta.list "a" [NestedMeta.meta (Meta.nameValue "b" (Lit.str "c"))]))] ["a", "b", "c"] = false := by decide

/-- **C1** (amended): for every attribute list and every three-element
query path `[a, b, c]`, `contains_attribute` returns true if and only if
some outer attribute with interpretable meta carries an annotation nested
as `a(b(c))` with `c` a bare word; the name-value form `a(b = c)` is not
matched. -/
theorem claim_C1_contains_three_path (attrs : List Attribute) (a b c : String) :
    contains_attribute attrs [a, b, c] = true ↔
      ∃ attr ∈ attrs, attr.style = AttrStyle.outer ∧
        ∃ ns₁, attr.meta = some (Meta.list a ns₁) ∧
          ∃ ns₂, NestedMeta.meta (Meta.list b ns₂) ∈ ns₁ ∧
            NestedMeta.meta (Meta.word c) ∈ ns₂ := by
  rw [contains_attribute_iff]
  constructor
  · rintro ⟨attr, hattr, hs, m, hm, h⟩
    rcases (contains_impl_three_iff m a b c).mp h with ⟨ns₁, hm', ns₂, hmem, hw⟩
    subst hm'
    exact ⟨attr, hattr, hs, ns₁, hm, ns₂, hmem, hw⟩
  · rintro ⟨attr, hattr, hs, ns₁, hm, ns₂, hmem, hw⟩
    exact ⟨attr, hattr, hs, Meta.list a ns₁, hm,
      (contains_impl_three_iff _ a b c).mpr ⟨ns₁, rfl, ns₂, hmem, hw⟩⟩

/-- **C9**: for the empty query path, `contains_attribute` returns
`false` and `get_attribute_value` returns `none`, for every attribute
list (and, the walk being total, without panicking). -/
theorem claim_C9_empty_path (attrs : List Attribute) :
    contains_attribute attrs [] = false ∧ get_attribute_value attrs [] = none := by
  induction attrs with
  | nil => exact ⟨rfl, rfl⟩
  | cons attr rest ih =>
    constructor
    · show (_ || contains_attribute rest []) = false
      rw [ih.1, Bool.or_false]
      by_cases hs : attr.style = AttrStyle.outer
      · rw [if_pos hs]
        cases attr.meta with
        | none => rfl
        | some m => exact contains_attribute_impl_nil m
      · rw [if_neg hs]
    · show (match (if attr.style = AttrStyle.outer then _ else none) with
        | some v => some v | none => get_attribute_value rest []) = none
      by_cases hs : attr.style = AttrStyle.outer
      · rw [if_pos hs]
        cases attr.meta with
        | none => exact ih.2
        | some m =>
          have h₁ : get_attribute_value_impl m [] = none := by
            cases m <;> rfl
          change (match get_attribute_value_impl m [] with
            | some v => some v
            | none => get_attribute_value rest []) = none
          rw [h₁]
          exact ih.2
      · rw [if_neg hs]
        exact ih.2

mutual
theorem gav_eq_head : ∀ (meta : Meta) (id : List String),
    get_attribute_value_impl meta id = (matchedLits meta id).head?
  | meta, [] => by cases meta <;> rfl
  | .word ident, i0 :: rest => rfl
  | .nameValue ident lit, i0 :: rest => by
    show (if ident == i0 then some lit else none)
      = (if ident == i0 then [lit] else []).head?
    cases h : ident == i0 <;> simp
  | .list ident nested, i0 :: rest => by
    show (if ident == i0 then getValueNested nested rest else none)
      = (if ident == i0 then matchedLitsNested nested rest else []).head?
    cases h : ident == i0
    · simp
    · simp only [if_pos rfl]
      exact gavNested_eq_head nested rest

theorem gavNested_eq_head : ∀ (nested : List NestedMeta) (id : List String),
    getValueNested nested id = (matchedLitsNested nested id).head?
  | [], _ => rfl
  | .meta m :: rest, id => by
    show (match get_attribute_value_impl m id with
          | some v => some v
          | none => getValueNested rest id)
      = (matchedLits m id ++ matchedLitsNested rest id).head?
    rw [gav_eq_head m id, gavNested_eq_head rest id]
    cases matchedLits m id <;> simp
  | .literal l :: rest, id => gavNested_eq_head rest id
end

theorem get_attribute_value_eq_head (attrs : List Attribute) (id : List String) :
    get_attribute_value attrs id = (attrsMatchedLits attrs id).head? := by
  induction attrs with
  | nil => rfl
  | cons attr rest ih =>
    show (match (if attr.style = AttrStyle.outer then
            match attr.meta with
            | some meta => get_attribute_value_impl meta id
            | none => none
           else none) with
          | some v => some v
          | none => get_attribute_value rest id)
      = ((if attr.style = AttrStyle.outer then
            match attr.meta with
            | some meta => matchedLits meta id
            | none => []
           else []) ++ attrsMatchedLits rest id).head?
    by_cases hs : attr.style = AttrStyle.outer
    · rw [if_pos hs, if_pos hs]
      cases hm : attr.meta with
      | none => simpa using ih
      | some m =>
        change (match get_attribute_value_impl m id with
          | some v => some v
          | none => get_attribute_value rest id)
          = (matchedLits m id ++ attrsMatchedLits rest id).head?
        rw [gav_eq_head m id]
        cases matchedLits m id <;> simp [ih]
    · rw [if_neg hs, if_neg hs]
      simpa using ih

/-- **C2** (confirmed): for every attribute list and non-empty query
path, `get_attribute_value` returns the head of the list of all matching
literals in declaration order (attributes first to last, nested entries
left to right, depth first) — that is, the first matching literal — and
`none` when that list is empty, i.e. when no annotation matches. -/
theorem claim_C2_first_match (attrs : List Attribute) (id : List String)
    (_h : id ≠ []) :
    get_attribute_value attrs id = (attrsMatchedLits attrs id).head? :=
  get_attribute_value_eq_head attrs id

/-- Witness for C2 at a concrete input: the first of the two annotations
matching `["a", "b"]` is returned. -/
theorem claim_C2_first_match_witness :
    get_attribute_value [Attribute.mk AttrStyle.outer
        (some (Meta.list "a" [NestedMeta.meta (Meta.nameValue "b" (Lit.str "first")),
           NestedMeta.meta (Meta.nameValue "b" (Lit.str "second"))]))] ["a", "b"]
    =
    (attrsMatchedLits [Attribute.mk AttrStyle.outer
        (some (Meta.list "a" [NestedMeta.meta (Meta.nameValue "b" (Lit.str "first")),
           NestedMeta.meta (Meta.nameValue "b" (Lit.str "second"))]))] ["a", "b"]).head? :=
  claim_C2_first_match _ ["a", "b"] (by decide)

theorem processEntries_append (xs ys : List (String × Option Lit)) :
    ∀ map : LitMap,
    processEntries map (xs ++ ys) =
      match processEntries map xs with
      | Except.ok map' => processEntries map' ys
      | Except.error e => Except.error e := by
  induction xs with
  | nil => intro map; rfl
  | cons e rest ih =>
    intro map
    have hl : processEntries map ((e :: rest) ++ ys)
        = (match stepEntry map e with
           | Except.ok map' => processEntries map' (rest ++ ys)
           | Except.error err => Except.error err) := rfl
    have hr : processEntries map (e :: rest)
        = (match stepEntry map e with
           | Except.ok map' => processEntries map' rest
           | Except.error err => Except.error err) := rfl
    rw [hl, hr]
    cases stepEntry map e with
    | ok map' => exact ih map'
    | error err => rfl

mutual
theorem gam_impl_eq_processEntries : ∀ (meta : Meta) (map : LitMap) (pre sep : String),
    get_attribute_map_impl map meta pre sep =
      processEntries map (metaEntries meta pre sep)
  | .word ident, map, pre, sep => by
    have hl : get_attribute_map_impl map (Meta.word ident) pre sep
        = (if mapContains map (keyOf pre sep ident)
           then Except.error (keyOf pre sep ident ++ " already exists.")
           else Except.ok (mapInsert map (keyOf pre sep ident) [])) := rfl
    have hr : processEntries map (metaEntries (Meta.word ident) pre sep)
        = (match (if mapContains map (keyOf pre sep ident)
                  then Except.error (keyOf pre sep ident ++ " already exists.")
                  else Except.ok (mapInsert map (keyOf pre sep ident) []))
           with
           | Except.ok map' => Except.ok map'
           | Except.error err => Except.error err) := rfl
    rw [hl, hr]
    by_cases h : mapContains map (keyOf pre sep ident) = true
    · rw [if_pos h]
    · rw [if_neg h]
  | .nameValue ident lit, map, pre, sep => by
    have hl : get_attribute_map_impl map (Meta.nameValue ident lit) pre sep
        = (match mapFind map (keyOf pre sep ident) with
           | some value =>
             if value.isEmpty then
               Except.error ("conflicts among `" ++ keyOf pre sep ident ++ "` attributes.")
             else Except.ok (mapInsert map (keyOf pre sep ident) (value ++ [lit]))
           | none => Except.ok (mapInsert map (keyOf pre sep ident) [lit])) := rfl
    have hr : processEntries map (metaEntries (Meta.nameValue ident lit) pre sep)
        = (match (match mapFind map (keyOf pre sep ident) with
                  | some value =>
                    if value.isEmpty then
                      Except.error ("conflicts among `" ++ keyOf pre sep ident ++ "` attributes.")
                    else Except.ok (mapInsert map (keyOf pre sep ident) (value ++ [lit]))
                  | none => Except.ok (mapInsert map (keyOf pre sep ident) [lit]))
           with
           | Except.ok map' => Except.ok map'
           | Except.error err => Except.error err) := rfl
    rw [hl, hr]
    cases hf : mapFind map (keyOf pre sep ident) with
    | some value => cases value with
      | nil => rfl
      | cons v vs => rfl
    | none => rfl
  | .list ident nested, map, pre, sep =>
    gamNested_eq_processEntries nested map (keyOf pre sep ident) sep

theorem gamNested_eq_processEntries : ∀ (nested : List NestedMeta) (map : LitMap)
    (pre sep : String),
    gamNested map nested pre sep =
      processEntries map (nestedEntries nested pre sep)
  | [], map, pre, sep => rfl
  | .meta m :: rest, map, pre, sep => by
    show (match get_attribute_map_impl map m pre sep with
          | Except.ok map' => gamNested map' rest pre sep
          | Except.error e => Except.error e)
      = processEntries map (metaEntries m pre sep ++ nestedEntries rest pre sep)
    rw [processEntries_append, ← gam_impl_eq_processEntries m map pre sep]
    cases get_attribute_map_impl map m pre sep with
    | ok map' => exact gamNested_eq_processEntries rest map' pre sep
    | error e => rfl
  | .literal l :: rest, map, pre, sep =>
    gamNested_eq_processEntries rest map pre sep
end

theorem gamAttrs_eq_processEntries (attrs : List Attribute) (sep : String) :
    ∀ map : LitMap,
    gamAttrs map attrs sep = processEntries map (attrsEntries attrs sep) := by
  induction attrs with
  | nil => intro map; rfl
  | cons attr rest ih =>
    intro map
    show (if attr.style = AttrStyle.outer then _ else _)
      = processEntries map
          ((if attr.style = AttrStyle.outer then _ else _) ++ attrsEntries rest sep)
    by_cases hs : attr.style = AttrStyle.outer
    · rw [if_pos hs, if_pos hs]
      cases attr.meta with
      | none => exact ih map
      | some m =>
        show (match get_attribute_map_impl map m "" sep with
              | Except.ok map' => gamAttrs map' rest sep
              | Except.error e => Except.error e)
          = processEntries map (metaEntries m "" sep ++ attrsEntries rest sep)
        rw [processEntries_append, ← gam_impl_eq_processEntries m map "" sep]
        cases get_attribute_map_impl map m "" sep with
        | ok map' => exact ih map'
        | error e => rfl
    · rw [if_neg hs, if_neg hs]
      exact ih map

theorem get_attribute_map_eq_processEntries (attrs : List Attribute) (sep : String) :
    get_attribute_map attrs sep = processEntries [] (attrsEntries attrs sep) :=
  gamAttrs_eq_processEntries attrs sep []

theorem stepEntry_none_eq (map : LitMap) (k₀ : String) :
    stepEntry map (k₀, none) =
      if mapContains map k₀ then Except.error (k₀ ++ " already exists.")
      else Except.ok (mapInsert map k₀ []) := rfl

theorem stepEntry_some_eq (map : LitMap) (k₀ : String) (l : Lit) :
    stepEntry map (k₀, some l) =
      match mapFind map k₀ with
      | some value =>
        if value.isEmpty then
          Except.error ("conflicts among `" ++ k₀ ++ "` attributes.")
        else Except.ok (mapInsert map k₀ (value ++ [l]))
      | none => Except.ok (mapInsert map k₀ [l]) := rfl

theorem processEntries_cons (map : LitMap) (e : String × Option Lit)
    (rest : List (String × Option Lit)) :
    processEntries map (e :: rest) =
      match stepEntry map e with
      | Except.ok map' => processEntries map' rest
      | Except.error err => Except.error err := rfl

/-- A successful step on an entry with a different key leaves the
binding of `k` unchanged. -/
theorem stepEntry_ok_ne (map map' : LitMap) (k₀ : String) (p : Option Lit)
    (k : String) (hne : k ≠ k₀) (h : stepEntry map (k₀, p) = Except.ok map') :
    mapFind map' k = mapFind map k := by
  cases p with
  | none =>
    rw [stepEntry_none_eq] at h
    by_cases hc : mapContains map k₀ = true
    · rw [if_pos hc] at h
      exact Except.noConfusion h
    · rw [if_neg hc] at h
      injection h with h'
      subst h'
      exact mapFind_insert_ne map k₀ k [] hne
  | some l =>
    rw [stepEntry_some_eq] at h
    cases hf : mapFind map k₀ with
    | some value =>
      rw [hf] at h
      cases value with
      | nil => exact Except.noConfusion h
      | cons a as =>
        injection h with h'
        subst h'
        exact mapFind_insert_ne map k₀ k _ hne
    | none =>
      rw [hf] at h
      injection h with h'
      subst h'
      exact mapFind_insert_ne map k₀ k _ hne

/-- No step on key `k` succeeds while `k` is bound to the empty vector
(a bare-marker binding): a word entry hits the `already exists`
assertion, a valued entry the `conflicts among` assertion. -/
theorem stepEntry_empty_binding (map map' : LitMap) (k : String) (p : Option Lit)
    (hf : mapFind map k = some []) (h : stepEntry map (k, p) = Except.ok map') :
    False := by
  cases p with
  | none =>
    rw [stepEntry_none_eq] at h
    have hc : mapContains map k = true := by rw [mapContains, hf]; rfl
    rw [if_pos hc] at h
    exact Except.noConfusion h
  | some l =>
    rw [stepEntry_some_eq, hf] at h
    exact Except.noConfusion h

/-- A successful step on key `k` while `k` is bound to a non-empty
vector appends to it, keeping it non-empty. -/
theorem stepEntry_nonempty_binding (map map' : LitMap) (k : String)
    (p : Option Lit) (v : List Lit) (hf : mapFind map k = some v) (hv : v ≠ [])
    (h : stepEntry map (k, p) = Except.ok map') :
    ∃ v', mapFind map' k = some v' ∧ v' ≠ [] := by
  cases p with
  | none =>
    rw [stepEntry_none_eq] at h
    have hc : mapContains map k = true := by rw [mapContains, hf]; rfl
    rw [if_pos hc] at h
    exact Except.noConfusion h
  | some l =>
    rw [stepEntry_some_eq, hf] at h
    cases v with
    | nil => exact absurd rfl hv
    | cons a as =>
      injection h with h'
      subst h'
      exact ⟨(a :: as) ++ [l], mapFind_insert_self map k _, by simp⟩

/-- Inversion of a successful step on a word entry. -/
theorem stepEntry_none_ok (map map' : LitMap) (k : String)
    (h : stepEntry map (k, none) = Except.ok map') :
    map' = mapInsert map k [] ∧ mapContains map k = false := by
  rw [stepEntry_none_eq] at h
  by_cases hc : mapContains map k = true
  · rw [if_pos hc] at h
    exact Except.noConfusion h
  · rw [if_neg hc] at h
    injection h with h'
    exact ⟨h'.symm, Bool.not_eq_true _ ▸ hc⟩

/-- A successful step on a valued entry leaves its key bound to a
non-empty vector. -/
theorem stepEntry_some_ok (map map' : LitMap) (k : String) (l : Lit)
    (h : stepEntry map (k, some l) = Except.ok map') :
    ∃ v', mapFind map' k = some v' ∧ v' ≠ [] := by
  rw [stepEntry_some_eq] at h
  cases hf : mapFind map k with
  | some value =>
    rw [hf] at h
    cases value with
    | nil => exact Except.noConfusion h
    | cons a as =>
      injection h with h'
      subst h'
      exact ⟨(a :: as) ++ [l], mapFind_insert_self map k _, by simp⟩
  | none =>
    rw [hf] at h
    injection h with h'
    subst h'
    exact ⟨[l], mapFind_insert_self map k _, by simp⟩

/-- A successful step preserves key presence. -/
theorem stepEntry_preserves_contains (map map' : LitMap) (e : String × Option Lit)
    (k : String) (hc : mapContains map k = true)
    (h : stepEntry map e = Except.ok map') : mapContains map' k = true := by
  obtain ⟨k₀, p⟩ := e
  by_cases hk : k = k₀
  · subst hk
    rcases Option.isSome_iff_exists.mp hc with ⟨v, hf⟩
    cases v with
    | nil => exact absurd h (fun h' => stepEntry_empty_binding map map' k p hf h')
    | cons a as =>
      rcases stepEntry_nonempty_binding map map' k p _ hf (by simp) h with
        ⟨v', hf', _⟩
      rw [mapContains, hf']
      rfl
  · rw [mapContains, stepEntry_ok_ne map map' k₀ p k hk h]
    exact hc

/-- A marker binding (`some []`) survives any successful fold. -/
theorem processEntries_keeps_empty (es : List (String × Option Lit)) :
    ∀ (map m' : LitMap) (k : String), mapFind map k = some [] →
      processEntries map es = Except.ok m' → mapFind m' k = some [] := by
  induction es with
  | nil =>
    intro map m' k hf h
    injection h with h'
    rw [← h']
    exact hf
  | cons e rest ih =>
    intro map m' k hf h
    rw [processEntries_cons] at h
    cases hs : stepEntry map e with
    | error err => rw [hs] at h; exact Except.noConfusion h
    | ok map₁ =>
      rw [hs] at h
      obtain ⟨k₀, p⟩ := e
      by_cases hk : k = k₀
      · subst hk
        exact absurd hs (fun h' => stepEntry_empty_binding map map₁ k p hf h')
      · exact ih map₁ m' k
          (by rw [stepEntry_ok_ne map map₁ k₀ p k hk hs]; exact hf) h

/-- A non-empty binding stays non-empty through any successful fold. -/
theorem processEntries_keeps_nonempty (es : List (String × Option Lit)) :
    ∀ (map m' : LitMap) (k : String) (v : List Lit), mapFind map k = some v →
      v ≠ [] → processEntries map es = Except.ok m' →
      ∃ v', mapFind m' k = some v' ∧ v' ≠ [] := by
  induction es with
  | nil =>
    intro map m' k v hf hv h
    injection h with h'
    rw [← h']
    exact ⟨v, hf, hv⟩
  | cons e rest ih =>
    intro map m' k v hf hv h
    rw [processEntries_cons] at h
    cases hs : stepEntry map e with
    | error err => rw [hs] at h; exact Except.noConfusion h
    | ok map₁ =>
      rw [hs] at h
      obtain ⟨k₀, p⟩ := e
      by_cases hk : k = k₀
      · subst hk
        rcases stepEntry_nonempty_binding map map₁ k p v hf hv hs with ⟨v', hf', hv'⟩
        exact ih map₁ m' k v' hf' hv' h
      · exact ih map₁ m' k v
          (by rw [stepEntry_ok_ne map map₁ k₀ p k hk hs]; exact hf) hv h

/-- If the fold succeeds and the entries contain the marker `(k, none)`,
the final map binds `k` to the empty vector. -/
theorem processEntries_marker_final (es : List (String × Option Lit)) :
    ∀ (map m' : LitMap) (k : String), (k, none) ∈ es →
      processEntries map es = Except.ok m' → mapFind m' k = some [] := by
  induction es with
  | nil => intro map m' k hmem _; exact absurd hmem (List.not_mem_nil _)
  | cons e rest ih =>
    intro map m' k hmem h
    rw [processEntries_cons] at h
    cases hs : stepEntry map e with
    | error err => rw [hs] at h; exact Except.noConfusion h
    | ok map₁ =>
      rw [hs] at h
      rcases List.mem_cons.mp hmem with he | he
      · subst he
        rcases stepEntry_none_ok map map₁ k hs with ⟨hmap₁, _⟩
        subst hmap₁
        exact processEntries_keeps_empty rest _ m' k (mapFind_insert_self map k []) h
      · exact ih map₁ m' k he h

/-- If the fold succeeds and the entries contain a valued entry
`(k, some l)`, the final map binds `k` to a non-empty vector. -/
theorem processEntries_valued_final (es : List (String × Option Lit)) :
    ∀ (map m' : LitMap) (k : String) (l : Lit), (k, some l) ∈ es →
      processEntries map es = Except.ok m' →
      ∃ v', mapFind m' k = some v' ∧ v' ≠ [] := by
  induction es with
  | nil => intro map m' k l hmem _; exact absurd hmem (List.not_mem_nil _)
  | cons e rest ih =>
    intro map m' k l hmem h
    rw [processEntries_cons] at h
    cases hs : stepEntry map e with
    | error err => rw [hs] at h; exact Except.noConfusion h
    | ok map₁ =>
      rw [hs] at h
      rcases List.mem_cons.mp hmem with he | he
      · subst he
        rcases stepEntry_some_ok map map₁ k l hs with ⟨v', hf', hv'⟩
        exact processEntries_keeps_nonempty rest map₁ m' k v' hf' hv' h
      · exact ih map₁ m' k l he h

/-- Once a key is present, a later marker entry for it makes the fold
fail. -/
theorem processEntries_present_marker (es : List (String × Option Lit)) :
    ∀ (map : LitMap) (k : String), mapContains map k = true →
      (k, none) ∈ es → ∀ m', processEntries map es ≠ Except.ok m' := by
  induction es with
  | nil => intro map k _ hmem m' _; exact absurd hmem (List.not_mem_nil _)
  | cons e rest ih =>
    intro map k hc hmem m' h
    rw [processEntries_cons] at h
    cases hs : stepEntry map e with
    | error err => rw [hs] at h; exact Except.noConfusion h
    | ok map₁ =>
      rw [hs] at h
      rcases List.mem_cons.mp hmem with he | he
      · subst he
        rcases stepEntry_none_ok map map₁ k hs with ⟨_, hc'⟩
        exact Bool.noConfusion (hc'.symm.trans hc)
      · exact ih map₁ k (stepEntry_preserves_contains map map₁ e k hc hs) he m' h

/-- Two marker entries with the same key make the fold fail, from any
starting map. -/
theorem processEntries_double_marker (es : List (String × Option Lit)) :
    ∀ (map : LitMap) (k : String), 2 ≤ es.count (k, none) →
      ∀ m', processEntries map es ≠ Except.ok m' := by
  induction es with
  | nil => intro map k hcount m' _; simp [List.count_nil] at hcount
  | cons e rest ih =>
    intro map k hcount m' h
    rw [processEntries_cons] at h
    cases hs : stepEntry map e with
    | error err => rw [hs] at h; exact Except.noConfusion h
    | ok map₁ =>
      rw [hs] at h
      by_cases he : e = (k, none)
      · subst he
        rcases stepEntry_none_ok map map₁ k hs with ⟨hmap₁, _⟩
        subst hmap₁
        have hc₁ : mapContains (mapInsert map k []) k = true := by
          rw [mapContains, mapFind_insert_self]
          rfl
        have hmem : (k, none) ∈ rest := by
          rw [List.count_cons_self] at hcount
          exact List.count_pos_iff.mp (by omega)
        exact processEntries_present_marker rest _ k hc₁ hmem m' h
      · have hcount' : 2 ≤ rest.count (k, none) := by
          rw [List.count_cons_of_ne (fun h' => he h'.symm)] at hcount
          exact hcount
        exact ih map₁ k hcount' m' h

theorem valsFor_cons_eq (k : String) (p : Option Lit)
    (rest : List (String × Option Lit)) :
    valsFor ((k, p) :: rest) k =
      (match p with
       | some l => l :: valsFor rest k
       | none => valsFor rest k) := by
  cases p with
  | some l => simp [valsFor, List.filterMap_cons]
  | none => simp [valsFor, List.filterMap_cons]

theorem valsFor_cons_ne (k₀ k : String) (p : Option Lit)
    (rest : List (String × Option Lit)) (h : k₀ ≠ k) :
    valsFor ((k₀, p) :: rest) k = valsFor rest k := by
  simp [valsFor, List.filterMap_cons, h]

/-- When every entry is valued (`name = value`), the fold never fails
and each key accumulates the literals of its entries in order, provided
the starting map has no empty (marker) binding. -/
theorem processEntries_all_valued (es : List (String × Option Lit)) :
    ∀ map : LitMap,
    (∀ e ∈ es, e.2 ≠ none) →
    (∀ k v, mapFind map k = some v → v ≠ []) →
    ∃ m', processEntries map es = Except.ok m' ∧
      ∀ k, mapFind m' k =
        match mapFind map k with
        | some v => some (v ++ valsFor es k)
        | none => if valsFor es k = [] then none else some (valsFor es k) := by
  induction es with
  | nil =>
    intro map _ _
    refine ⟨map, rfl, fun k => ?_⟩
    cases hf : mapFind map k <;> simp [hf, valsFor]
  | cons e rest ih =>
    intro map h1 h2
    obtain ⟨k₀, p⟩ := e
    cases p with
    | none => exact absurd rfl (h1 (k₀, none) (List.mem_cons_self _ _))
    | some l =>
      have h1' : ∀ e ∈ rest, e.2 ≠ none :=
        fun e he => h1 e (List.mem_cons_of_mem _ he)
      cases hf : mapFind map k₀ with
      | some v =>
        have hv : v ≠ [] := h2 k₀ v hf
        have hstep : stepEntry map (k₀, some l)
            = Except.ok (mapInsert map k₀ (v ++ [l])) := by
          rw [stepEntry_some_eq, hf]
          cases v with
          | nil => exact absurd rfl hv
          | cons a as => rfl
        have h2' : ∀ k w, mapFind (mapInsert map k₀ (v ++ [l])) k = some w →
            w ≠ [] := by
          intro k w hw
          by_cases hk : k = k₀
          · subst hk
            rw [mapFind_insert_self] at hw
            injection hw with hw'
            subst hw'
            simp
          · rw [mapFind_insert_ne map k₀ k _ hk] at hw
            exact h2 k w hw
        rcases ih (mapInsert map k₀ (v ++ [l])) h1' h2' with ⟨m', hok, hfind⟩
        refine ⟨m', by rw [processEntries_cons, hstep]; exact hok, fun k => ?_⟩
        have hthis := hfind k
        by_cases hk : k = k₀
        · subst hk
          rw [mapFind_insert_self] at hthis
          rw [hthis, hf, valsFor_cons_eq]
          simp [List.append_assoc]
        · rw [mapFind_insert_ne map k₀ k _ hk] at hthis
          rw [hthis, valsFor_cons_ne k₀ k _ rest (fun h' => hk h'.symm)]
      | none =>
        have hstep : stepEntry map (k₀, some l)
            = Except.ok (mapInsert map k₀ [l]) := by
          rw [stepEntry_some_eq, hf]
        have h2' : ∀ k w, mapFind (mapInsert map k₀ [l]) k = some w → w ≠ [] := by
          intro k w hw
          by_cases hk : k = k₀
          · subst hk
            rw [mapFind_insert_self] at hw
            injection hw with hw'
            subst hw'
            simp
          · rw [mapFind_insert_ne map k₀ k _ hk] at hw
            exact h2 k w hw
        rcases ih (mapInsert map k₀ [l]) h1' h2' with ⟨m', hok, hfind⟩
        refine ⟨m', by rw [processEntries_cons, hstep]; exact hok, fun k => ?_⟩
        have hthis := hfind k
        by_cases hk : k = k₀
        · subst hk
          rw [mapFind_insert_self] at hthis
          rw [hthis, hf, valsFor_cons_eq]
          simp
        · rw [mapFind_insert_ne map k₀ k _ hk] at hthis
          rw [hthis, valsFor_cons_ne k₀ k _ rest (fun h' => hk h'.symm)]

/-- **C3** (confirmed): for every attribute list whose flattened entries
contain the same dotted key both as a bare marker (word) and as a valued
(`name = value`) entry — in either order — `get_attribute_map` fails via
a panicking assertion (embedded as `Except.error` with the panic
message) rather than returning a map. -/
theorem claim_C3_marker_valued_conflict (attrs : List Attribute)
    (sep k : String) (l : Lit)
    (hmarker : (k, none) ∈ attrsEntries attrs sep)
    (hvalued : (k, some l) ∈ attrsEntries attrs sep) :
    ∃ msg, get_attribute_map attrs sep = Except.error msg := by
  rw [get_attribute_map_eq_processEntries]
  cases hres : processEntries [] (attrsEntries attrs sep) with
  | ok m' =>
    have hempty := processEntries_marker_final _ _ _ k hmarker hres
    rcases processEntries_valued_final _ _ _ k l hvalued hres with ⟨v', hv', hne⟩
    rw [hempty] at hv'
    injection hv' with h'
    exact absurd h'.symm hne
  | error msg => exact ⟨msg, rfl⟩

/-- Witness for C3, in both orders: `#[k]` with `#[k = "v"]`, and
`#[k = "v"]` with `#[k]`, both panic. -/
theorem claim_C3_marker_valued_conflict_witness :
    (∃ msg, get_attribute_map [Attribute.mk AttrStyle.outer (some (Meta.word "k")),
       Attribute.mk AttrStyle.outer (some (Meta.nameValue "k" (Lit.str "v")))]
      "." = Except.error msg) ∧
    (∃ msg, get_attribute_map [Attribute.mk AttrStyle.outer (some (Meta.nameValue "k" (Lit.str "v"))),
       Attribute.mk AttrStyle.outer (some (Meta.word "k"))]
      "." = Except.error msg) :=
  ⟨claim_C3_marker_valued_conflict _ "." "k" (Lit.str "v") (by decide) (by decide),
   claim_C3_marker_valued_conflict _ "." "k" (Lit.str "v") (by decide) (by decide)⟩

/-- **C8** (confirmed): `get_attribute_map` also panics when the same
dotted key appears twice as a bare marker (two word annotations with the
same flattened key); conversely, when every flattened entry is a valued
(`name = value`) entry, no panic occurs and each dotted key accumulates
one literal per occurrence, in declaration order. -/
theorem claim_C8_double_marker_and_repeats (attrs : List Attribute) (sep : String) :
    (∀ k, 2 ≤ (attrsEntries attrs sep).count (k, none) →
      ∃ msg, get_attribute_map attrs sep = Except.error msg) ∧
    ((∀ e ∈ attrsEntries attrs sep, e.2 ≠ none) →
      ∃ m, get_attribute_map attrs sep = Except.ok m ∧
        ∀ k, mapFind m k =
          if valsFor (attrsEntries attrs sep) k = [] then none
          else some (valsFor (attrsEntries attrs sep) k)) := by
  constructor
  · intro k hcount
    rw [get_attribute_map_eq_processEntries]
    cases hres : processEntries [] (attrsEntries attrs sep) with
    | ok m' => exact absurd hres (processEntries_double_marker _ _ k hcount m')
    | error msg => exact ⟨msg, rfl⟩
  · intro hall
    rcases processEntries_all_valued (attrsEntries attrs sep) [] hall
      (fun k v h => Option.noConfusion h) with ⟨m, hok, hfind⟩
    refine ⟨m, by rw [get_attribute_map_eq_processEntries]; exact hok, fun k => ?_⟩
    exact hfind k

/-- Witness for C8: two bare `#[k]` markers panic; two `#[a = ...]`
values accumulate both literals in order. -/
theorem claim_C8_double_marker_and_repeats_witness :
    (∃ msg, get_attribute_map [Attribute.mk AttrStyle.outer (some (Meta.word "k")),
       Attribute.mk AttrStyle.outer (some (Meta.word "k"))]
      "." = Except.error msg) ∧
    (∃ m, get_attribute_map [Attribute.mk AttrStyle.outer (some (Meta.nameValue "a" (Lit.str "x"))),
       Attribute.mk AttrStyle.outer (some (Meta.nameValue "a" (Lit.str "y")))]
      "." = Except.ok m ∧
      ∀ k, mapFind m k =
        if valsFor (attrsEntries [Attribute.mk AttrStyle.outer (some (Meta.nameValue "a" (Lit.str "x"))),
             Attribute.mk AttrStyle.outer (some (Meta.nameValue "a" (Lit.str "y")))]
            ".") k = [] then none
        else some (valsFor (attrsEntries [Attribute.mk AttrStyle.outer (some (Meta.nameValue "a" (Lit.str "x"))),
             Attribute.mk AttrStyle.outer (some (Meta.nameValue "a" (Lit.str "y")))]
            ".") k)) :=
  ⟨(claim_C8_double_marker_and_repeats _ ".").1 "k" (by decide),
   (claim_C8_double_marker_and_repeats _ ".").2 (by decide)⟩

/-- **C4** (corrected): the claim asserts that coercion to `u64`
succeeds exactly when the literal is of integer kind.  It does not: an
integer literal whose base-10 value does not fit in a `u64` (here
`2 ^ 64`) is of integer kind yet yields `CastError`, because
`LitInt::base10_parse::<u64>` fails on overflow. -/
theorem claim_C4_counterexample :
    u64_from_lit (Lit.int (2 ^ 64)) = Except.error CastError.mk := by decide

/-- **C4** (amended): coercion to `u64` succeeds exactly on integer
literals whose value fits in a `u64` (overflow yields `CastError`);
coercion to `f64`, `bool` and `String` succeeds exactly on float,
boolean and string literals respectively; consequently a lookup whose
found literal mismatches the requested kind coerces to `CastError`,
i.e. produces no value. -/
theorem claim_C4_coercions (l : Lit) :
    ((∃ v, u64_from_lit l = Except.ok v) ↔ (∃ n, l = Lit.int n ∧ n < 2 ^ 64)) ∧
    ((∃ v, f64_from_lit l = Except.ok v) ↔ (∃ d, l = Lit.float d)) ∧
    ((∃ v, bool_from_lit l = Except.ok v) ↔ (∃ b, l = Lit.bool b)) ∧
    ((∃ v, string_from_lit l = Except.ok v) ↔ (∃ s, l = Lit.str s)) ∧
    (∀ (attrs : List Attribute) (id : List String),
      get_attribute_value attrs id = some l →
      ((∀ n, l ≠ Lit.int n) → u64_from_lit l = Except.error CastError.mk) ∧
      ((∀ d, l ≠ Lit.float d) → f64_from_lit l = Except.error CastError.mk) ∧
      ((∀ b, l ≠ Lit.bool b) → bool_from_lit l = Except.error CastError.mk) ∧
      ((∀ s, l ≠ Lit.str s) → string_from_lit l = Except.error CastError.mk)) := by
  refine ⟨?_, ?_, ?_, ?_, ?_⟩
  · cases l with
    | int n =>
      rw [show u64_from_lit (Lit.int n)
            = (if n < 2 ^ 64 then Except.ok n else Except.error CastError.mk)
          from rfl]
      by_cases h : n < 2 ^ 64
      · rw [if_pos h]
        exact ⟨fun _ => ⟨n, rfl, h⟩, fun _ => ⟨n, rfl⟩⟩
      · rw [if_neg h]
        constructor
        · rintro ⟨v, hv⟩
          exact Except.noConfusion hv
        · rintro ⟨n', hn', hlt⟩
          injection hn' with he
          subst he
          exact absurd hlt h
    | str s => simp [u64_from_lit]
    | byteStr v => simp [u64_from_lit]
    | byte v => simp [u64_from_lit]
    | char v => simp [u64_from_lit]
    | float d => simp [u64_from_lit]
    | bool b => simp [u64_from_lit]
    | verbatim t => simp [u64_from_lit]
  · cases l <;> simp [f64_from_lit]
  · cases l <;> simp [bool_from_lit]
  · cases l <;> simp [string_from_lit]
  · intro attrs id _
    refine ⟨?_, ?_, ?_, ?_⟩ <;> intro hne <;> cases l <;>
      first
        | rfl
        | exact absurd rfl (hne _)

/-- Witness for C4: the string literal found by a lookup mismatches the
requested integer type, so the coercion yields `CastError`. -/
theorem claim_C4_coercions_witness :
    u64_from_lit (Lit.str "s") = Except.error CastError.mk :=
  ((claim_C4_coercions (Lit.str "s")).2.2.2.2 [Attribute.mk AttrStyle.outer (some (Meta.nameValue "a" (Lit.str "s")))] ["a"] (by decide)).1
    (fun _ h => Lit.noConfusion h)

theorem getValueNested_nil (nested : List NestedMeta) :
    getValueNested nested [] = none := by
  induction nested with
  | nil => rfl
  | cons hd rest ih =>
    cases hd with
    | meta m =>
      show (match get_attribute_value_impl m [] with
            | some v => some v
            | none => getValueNested rest []) = none
      have h₀ : get_attribute_value_impl m [] = none := by cases m <;> rfl
      rw [h₀]
      exact ih
    | literal l => exact ih

/-- **C5** (corrected): the claim asserts that a path longer than the
annotation's nesting never matches, for both functions.  For
`get_attribute_value` it does: once a name-value entry's ident equals
the current path element, its literal is returned regardless of the
remaining path elements, so `[a, b, c]` against `a(b = "v")` yields
`Some("v")` rather than `None`. -/
theorem claim_C5_counterexample :
    get_attribute_value [Attribute.mk AttrStyle.outer
        (some (Meta.list "a" [NestedMeta.meta (Meta.nameValue "b" (Lit.str "v"))]))] ["a", "b", "c"] = some (Lit.str "v") := by decide

theorem containsNested_singleton (m : Meta) (id : List String) :
    containsNested [NestedMeta.meta m] id = contains_attribute_impl m id := by
  show (contains_attribute_impl m id || containsNested [] id)
    = contains_attribute_impl m id
  rw [show containsNested ([] : List NestedMeta) id = false from rfl, Bool.or_false]

theorem getValueNested_singleton (m : Meta) (id : List String) :
    getValueNested [NestedMeta.meta m] id = get_attribute_value_impl m id := by
  show (match get_attribute_value_impl m id with
        | some v => some v
        | none => getValueNested [] id) = get_attribute_value_impl m id
  cases get_attribute_value_impl m id <;> rfl

theorem contains_attribute_singleton (m : Meta) (id : List String) :
    contains_attribute [Attribute.mk AttrStyle.outer (some m)] id
      = contains_attribute_impl m id := by
  show (contains_attribute_impl m id || contains_attribute [] id)
    = contains_attribute_impl m id
  rw [show contains_attribute ([] : List Attribute) id = false from rfl,
    Bool.or_false]

theorem get_attribute_value_singleton (m : Meta) (id : List String) :
    get_attribute_value [Attribute.mk AttrStyle.outer (some m)] id
      = get_attribute_value_impl m id := by
  show (match get_attribute_value_impl m id with
        | some v => some v
        | none => get_attribute_value [] id) = get_attribute_value_impl m id
  cases get_attribute_value_impl m id <;> rfl

/-- `contains_attribute_impl` on a word-terminated chain matches exactly
the chain's full ident sequence: every proper prefix, every reordering
and every longer path yields `false`. -/
theorem contains_chainWord_iff : ∀ (pre : List String) (w : String)
    (id : List String),
    contains_attribute_impl (chainWord pre w) id = true ↔ id = pre ++ [w] := by
  intro pre
  induction pre with
  | nil =>
    intro w id
    cases id with
    | nil =>
      rw [show contains_attribute_impl (chainWord [] w) [] = false from rfl]
      simp
    | cons i0 rest =>
      rw [show contains_attribute_impl (chainWord [] w) (i0 :: rest)
            = (rest.isEmpty && (w == i0)) from rfl]
      cases rest with
      | nil =>
        simp only [List.isEmpty_nil, Bool.true_and, beq_iff_eq, List.nil_append,
          List.cons.injEq, and_true]
        exact ⟨fun h => h.symm, fun h => h.symm⟩
      | cons i1 rest' => simp
  | cons p ps ih =>
    intro w id
    cases id with
    | nil =>
      rw [show contains_attribute_impl (chainWord (p :: ps) w) [] = false from rfl]
      simp
    | cons i0 rest =>
      rw [show contains_attribute_impl (chainWord (p :: ps) w) (i0 :: rest)
            = ((p == i0) &&
               containsNested [NestedMeta.meta (chainWord ps w)] rest) from rfl,
        containsNested_singleton]
      simp only [Bool.and_eq_true, beq_iff_eq, ih w rest, List.cons_append,
        List.cons.injEq]
      exact ⟨fun h => ⟨h.1.symm, h.2⟩, fun h => ⟨h.1.symm, h.2⟩⟩

/-- `get_attribute_value_impl` never matches a word-terminated chain:
there is no name-value entry to return. -/
theorem gav_chainWord_none : ∀ (pre : List String) (w : String)
    (id : List String),
    get_attribute_value_impl (chainWord pre w) id = none := by
  intro pre
  induction pre with
  | nil =>
    intro w id
    cases id <;> rfl
  | cons p ps ih =>
    intro w id
    cases id with
    | nil => rfl
    | cons i0 rest =>
      rw [show get_attribute_value_impl (chainWord (p :: ps) w) (i0 :: rest)
            = (if p == i0 then
                getValueNested [NestedMeta.meta (chainWord ps w)] rest
              else none) from rfl,
        getValueNested_singleton, ih w rest, ite_self]

/-- `contains_attribute_impl` never matches a value-terminated chain at
any path (the general form of the C1 correction). -/
theorem contains_chainValue_false : ∀ (pre : List String) (i : String)
    (l : Lit) (id : List String),
    contains_attribute_impl (chainValue pre i l) id = false := by
  intro pre
  induction pre with
  | nil =>
    intro i l id
    cases id <;> rfl
  | cons p ps ih =>
    intro i l id
    cases id with
    | nil => rfl
    | cons i0 rest =>
      rw [show contains_attribute_impl (chainValue (p :: ps) i l) (i0 :: rest)
            = ((p == i0) &&
               containsNested [NestedMeta.meta (chainValue ps i l)] rest) from rfl,
        containsNested_singleton, ih i l rest, Bool.and_false]

/-- `get_attribute_value_impl` on a value-terminated chain returns the
literal exactly when the path extends the chain's ident sequence through
the name-value ident — so proper prefixes and reorderings never match,
while any longer path does (the C5 correction). -/
theorem gav_chainValue_iff : ∀ (pre : List String) (i : String) (l : Lit)
    (id : List String) (l' : Lit),
    get_attribute_value_impl (chainValue pre i l) id = some l' ↔
      (l' = l ∧ ∃ ext, id = pre ++ i :: ext) := by
  intro pre
  induction pre with
  | nil =>
    intro i l id l'
    cases id with
    | nil =>
      rw [show get_attribute_value_impl (chainValue [] i l) [] = none from rfl]
      simp
    | cons i0 rest =>
      rw [show get_attribute_value_impl (chainValue [] i l) (i0 :: rest)
            = (if i == i0 then some l else none) from rfl]
      by_cases h : i = i0
      · subst h
        rw [if_pos (beq_self_eq_true i)]
        constructor
        · intro h'
          injection h' with h''
          exact ⟨h''.symm, rest, rfl⟩
        · rintro ⟨h1, _⟩
          rw [h1]
      · rw [if_neg (fun hc => h (eq_of_beq hc))]
        constructor
        · intro h'
          exact Option.noConfusion h'
        · rintro ⟨_, ext, hext⟩
          injection hext with h1 _
          exact absurd h1.symm h
  | cons p ps ih =>
    intro i l id l'
    cases id with
    | nil =>
      rw [show get_attribute_value_impl (chainValue (p :: ps) i l) [] = none from rfl]
      simp
    | cons i0 rest =>
      rw [show get_attribute_value_impl (chainValue (p :: ps) i l) (i0 :: rest)
            = (if p == i0 then
                getValueNested [NestedMeta.meta (chainValue ps i l)] rest
              else none) from rfl,
        getValueNested_singleton]
      by_cases h : p = i0
      · subst h
        rw [if_pos (beq_self_eq_true p), ih i l rest l']
        constructor
        · rintro ⟨h1, ext, h2⟩
          refine ⟨h1, ext, ?_⟩
          rw [h2]
          rfl
        · rintro ⟨h1, ext, h2⟩
          injection h2 with _ h3
          exact ⟨h1, ext, h3⟩
      · rw [if_neg (fun hc => h (eq_of_beq hc))]
        constructor
        · intro h'
          exact Option.noConfusion h'
        · rintro ⟨_, ext, hext⟩
          injection hext with h1 _
          exact absurd h1.symm h

/-- **C5** (amended): over a single annotation shaped as an arbitrary
nesting chain and an arbitrary query path, matching is characterized
exactly.  `contains_attribute` matches a word-terminated chain
`i₁(...(w)...)` iff the path equals the full ident sequence
`[i₁, ..., w]` — hence partial-prefix paths (any proper prefix, e.g.
`[a, b]` against `a(b(c))`), reordered paths (any permutation other than
the chain itself, e.g. `[a, c, b]` against `a(b(c))`) and longer paths
never match — and never matches a value-terminated chain.
`get_attribute_value` never matches a word-terminated chain; on a chain
ending in `i = l` it returns `l` iff the path extends the chain's ident
sequence through `i` — hence partial-prefix and reordered paths never
match, but a path longer than the nesting does match once the name-value
ident is reached, contrary to the original claim. -/
theorem claim_C5_path_shapes :
    (∀ (pre : List String) (w : String) (id : List String),
      contains_attribute [Attribute.mk AttrStyle.outer (some (chainWord pre w))] id = true
        ↔ id = pre ++ [w]) ∧
    (∀ (pre : List String) (w : String) (id : List String),
      get_attribute_value [Attribute.mk AttrStyle.outer (some (chainWord pre w))] id = none) ∧
    (∀ (pre : List String) (i : String) (l : Lit) (id : List String),
      contains_attribute [Attribute.mk AttrStyle.outer (some (chainValue pre i l))] id = false) ∧
    (∀ (pre : List String) (i : String) (l : Lit) (id : List String) (l' : Lit),
      get_attribute_value [Attribute.mk AttrStyle.outer (some (chainValue pre i l))] id = some l'
        ↔ (l' = l ∧ ∃ ext, id = pre ++ i :: ext)) := by
  refine ⟨?_, ?_, ?_, ?_⟩
  · intro pre w id
    rw [contains_attribute_singleton, contains_chainWord_iff]
  · intro pre w id
    rw [get_attribute_value_singleton, gav_chainWord_none]
  · intro pre i l id
    rw [contains_attribute_singleton, contains_chainValue_false]
  · intro pre i l id l'
    rw [get_attribute_value_singleton, gav_chainValue_iff]

/-- Probe: the deeper partial prefix `[a, b]` against `a(b(c))` matches
neither function (an instance of the chain characterization, evaluated
directly on the code). -/
theorem chain_probe_deeper_prefix :
    contains_attribute [Attribute.mk AttrStyle.outer (some (chainWord ["a", "b"] "c"))] ["a", "b"] = false ∧
    get_attribute_value [Attribute.mk AttrStyle.outer (some (chainWord ["a", "b"] "c"))] ["a", "b"] = none :=
  ⟨by decide, by decide⟩

/-- Probe: the internally reordered path `[a, c, b]` against `a(b(c))`
matches neither function. -/
theorem chain_probe_internal_reorder :
    contains_attribute [Attribute.mk AttrStyle.outer (some (chainWord ["a", "b"] "c"))] ["a", "c", "b"] = false ∧
    get_attribute_value [Attribute.mk AttrStyle.outer (some (chainWord ["a", "b"] "c"))] ["a", "c", "b"] = none :=
  ⟨by decide, by decide⟩

/-- Probe: against the value-terminated chain `a(b(c = "v"))`, the
proper prefix `[a, b]` and the reorder `[a, c, b]` yield no value, while
the longer path `[a, b, c, d]` does return the literal. -/
theorem chain_probe_value_chain :
    get_attribute_value [Attribute.mk AttrStyle.outer (some (chainValue ["a", "b"] "c" (Lit.str "v")))] ["a", "b"] = none ∧
    get_attribute_value [Attribute.mk AttrStyle.outer (some (chainValue ["a", "b"] "c" (Lit.str "v")))] ["a", "c", "b"] = none ∧
    get_attribute_value [Attribute.mk AttrStyle.outer (some (chainValue ["a", "b"] "c" (Lit.str "v")))] ["a", "b", "c", "d"] = some (Lit.str "v") :=
  ⟨by decide, by decide, by decide⟩

/-- **C6** (confirmed): every public operation of the crate is a pure
deterministic function of its arguments — equal inputs yield equal
results.  In this embedding the operations are Lean functions of their
inputs, and in the source they take `&[Attribute]` / `&str` shared
borrows and by-value literals, never mutating their input; the
congruence statements below are the shallow-embedding rendering of
determinism. -/
theorem claim_C6_deterministic :
    (∀ (attrs₁ attrs₂ : List Attribute) (id₁ id₂ : List String),
      attrs₁ = attrs₂ → id₁ = id₂ →
      contains_attribute attrs₁ id₁ = contains_attribute attrs₂ id₂) ∧
    (∀ (attrs₁ attrs₂ : List Attribute) (id₁ id₂ : List String),
      attrs₁ = attrs₂ → id₁ = id₂ →
      get_attribute_value attrs₁ id₁ = get_attribute_value attrs₂ id₂) ∧
    (∀ (attrs₁ attrs₂ : List Attribute) (sep₁ sep₂ : String),
      attrs₁ = attrs₂ → sep₁ = sep₂ →
      get_attribute_map attrs₁ sep₁ = get_attribute_map attrs₂ sep₂) ∧
    (∀ l₁ l₂ : Lit, l₁ = l₂ →
      lit_from_lit l₁ = lit_from_lit l₂ ∧
      u64_from_lit l₁ = u64_from_lit l₂ ∧
      f64_from_lit l₁ = f64_from_lit l₂ ∧
      bool_from_lit l₁ = bool_from_lit l₂ ∧
      string_from_lit l₁ = string_from_lit l₂) :=
  ⟨fun _ _ _ _ h₁ h₂ => by rw [h₁, h₂],
   fun _ _ _ _ h₁ h₂ => by rw [h₁, h₂],
   fun _ _ _ _ h₁ h₂ => by rw [h₁, h₂],
   fun _ _ h => by rw [h]; exact ⟨rfl, rfl, rfl, rfl, rfl⟩⟩

/-- Witness for C6 at concrete equal inputs. -/
theorem claim_C6_deterministic_witness :
    contains_attribute [Attribute.mk AttrStyle.outer (some (Meta.word "a"))] ["a"]
      = contains_attribute [Attribute.mk AttrStyle.outer (some (Meta.word "a"))] ["a"] ∧
    get_attribute_map [] "." = get_attribute_map [] "." ∧
    u64_from_lit (Lit.int 3) = u64_from_lit (Lit.int 3) :=
  ⟨claim_C6_deterministic.1 _ _ _ _ rfl rfl,
   claim_C6_deterministic.2.2.1 _ _ _ _ rfl rfl,
   (claim_C6_deterministic.2.2.2 _ _ rfl).2.1⟩

theorem metaDepth_pos (meta : Meta) : 1 ≤ metaDepth meta := by
  cases meta with
  | word ident => exact le_refl 1
  | nameValue ident lit => exact le_refl 1
  | list ident nested =>
    show 1 ≤ nsDepth nested + 1
    omega

theorem containsFuelList_complete (fuel : Nat)
    (H : ∀ (m : Meta) (id : List String), metaDepth m ≤ fuel →
      containsFuel fuel m id = some (contains_attribute_impl m id)) :
    ∀ (nested : List NestedMeta) (id : List String), nsDepth nested ≤ fuel →
      containsFuelList fuel nested id = some (containsNested nested id) := by
  intro nested
  induction nested with
  | nil => intro id _; rfl
  | cons hd rest ih =>
    intro id hdep
    cases hd with
    | meta m =>
      have hm : metaDepth m ≤ fuel := le_trans (le_max_left _ _) hdep
      have hr : nsDepth rest ≤ fuel := le_trans (le_max_right _ _) hdep
      show (match containsFuel fuel m id with
            | none => none
            | some true => some true
            | some false => containsFuelList fuel rest id)
        = some (contains_attribute_impl m id || containsNested rest id)
      rw [H m id hm]
      cases contains_attribute_impl m id with
      | true => rfl
      | false => rw [ih id hr]; rfl
    | literal l => exact ih id hdep

theorem containsFuel_complete : ∀ (fuel : Nat) (meta : Meta) (id : List String),
    metaDepth meta ≤ fuel →
    containsFuel fuel meta id = some (contains_attribute_impl meta id) := by
  intro fuel
  induction fuel with
  | zero =>
    intro m id h
    exact absurd h (by have := metaDepth_pos m; omega)
  | succ fuel ih =>
    intro m id hdep
    cases id with
    | nil => cases m <;> rfl
    | cons i0 rest =>
      cases m with
      | word ident => rfl
      | nameValue ident lit => rfl
      | list ident ns =>
        show (if ident == i0 then containsFuelList fuel ns rest else some false)
          = some ((ident == i0) && containsNested ns rest)
        cases h : ident == i0 with
        | false => rfl
        | true =>
          have hns : nsDepth ns ≤ fuel := by
            have h₁ : nsDepth ns + 1 ≤ fuel + 1 := hdep
            omega
          show containsFuelList fuel ns rest = some (containsNested ns rest)
          exact containsFuelList_complete fuel ih ns rest hns

theorem getValueFuelList_complete (fuel : Nat)
    (H : ∀ (m : Meta) (id : List String), metaDepth m ≤ fuel →
      getValueFuel fuel m id = some (get_attribute_value_impl m id)) :
    ∀ (nested : List NestedMeta) (id : List String), nsDepth nested ≤ fuel →
      getValueFuelList fuel nested id = some (getValueNested nested id) := by
  intro nested
  induction nested with
  | nil => intro id _; rfl
  | cons hd rest ih =>
    intro id hdep
    cases hd with
    | meta m =>
      have hm : metaDepth m ≤ fuel := le_trans (le_max_left _ _) hdep
      have hr : nsDepth rest ≤ fuel := le_trans (le_max_right _ _) hdep
      show (match getValueFuel fuel m id with
            | none => none
            | some (some v) => some (some v)
            | some none => getValueFuelList fuel rest id)
        = some (match get_attribute_value_impl m id with
                | some v => some v
                | none => getValueNested rest id)
      rw [H m id hm]
      cases get_attribute_value_impl m id with
      | some v => rfl
      | none => rw [ih id hr]
    | literal l => exact ih id hdep

theorem getValueFuel_complete : ∀ (fuel : Nat) (meta : Meta) (id : List String),
    metaDepth meta ≤ fuel →
    getValueFuel fuel meta id = some (get_attribute_value_impl meta id) := by
  intro fuel
  induction fuel with
  | zero =>
    intro m id h
    exact absurd h (by have := metaDepth_pos m; omega)
  | succ fuel ih =>
    intro m id hdep
    cases id with
    | nil => cases m <;> rfl
    | cons i0 rest =>
      cases m with
      | word ident => rfl
      | nameValue ident lit => rfl
      | list ident ns =>
        show (if ident == i0 then getValueFuelList fuel ns rest else some none)
          = some (if ident == i0 then getValueNested ns rest else none)
        cases h : ident == i0 with
        | false => rfl
        | true =>
          have hns : nsDepth ns ≤ fuel := by
            have h₁ : nsDepth ns + 1 ≤ fuel + 1 := hdep
            omega
          show getValueFuelList fuel ns rest = some (getValueNested ns rest)
          exact getValueFuelList_complete fuel ih ns rest hns

theorem getMapFuelList_complete (fuel : Nat)
    (H : ∀ (m : Meta) (map : LitMap) (pre sep : String), metaDepth m ≤ fuel →
      getMapFuel fuel map m pre sep = some (get_attribute_map_impl map m pre sep)) :
    ∀ (nested : List NestedMeta) (map : LitMap) (pre sep : String),
      nsDepth nested ≤ fuel →
      getMapFuelList fuel map nested pre sep = some (gamNested map nested pre sep) := by
  intro nested
  induction nested with
  | nil => intro map pre sep _; rfl
  | cons hd rest ih =>
    intro map pre sep hdep
    cases hd with
    | meta m =>
      have hm : metaDepth m ≤ fuel := le_trans (le_max_left _ _) hdep
      have hr : nsDepth rest ≤ fuel := le_trans (le_max_right _ _) hdep
      show (match getMapFuel fuel map m pre sep with
            | none => none
            | some (Except.error e) => some (Except.error e)
            | some (Except.ok map') => getMapFuelList fuel map' rest pre sep)
        = some (match get_attribute_map_impl map m pre sep with
                | Except.ok map' => gamNested map' rest pre sep
                | Except.error e => Except.error e)
      rw [H m map pre sep hm]
      cases get_attribute_map_impl map m pre sep with
      | ok map' => exact ih map' pre sep hr
      | error e => rfl
    | literal l => exact ih map pre sep hdep

theorem getMapFuel_complete : ∀ (fuel : Nat) (meta : Meta) (map : LitMap)
    (pre sep : String), metaDepth meta ≤ fuel →
    getMapFuel fuel map meta pre sep = some (get_attribute_map_impl map meta pre sep) := by
  intro fuel
  induction fuel with
  | zero =>
    intro m map pre sep h
    exact absurd h (by have := metaDepth_pos m; omega)
  | succ fuel ih =>
    intro m map pre sep hdep
    cases m with
    | word ident => rfl
    | nameValue ident lit => rfl
    | list ident ns =>
      have hns : nsDepth ns ≤ fuel := by
        have h₁ : nsDepth ns + 1 ≤ fuel + 1 := hdep
        omega
      show getMapFuelList fuel map ns (keyOf pre sep ident) sep
        = some (gamNested map ns (keyOf pre sep ident) sep)
      exact getMapFuelList_complete fuel ih ns map (keyOf pre sep ident) sep hns

/-- **C7** (confirmed): every recursive walk terminates on every input.
Each walk descends strictly into child meta items, so the fuel-bounded
variant of each walk — which gives up when its step budget runs out —
already reaches the walk's result with any budget at least the
annotation tree's nesting depth.  The attribute-level loops and the
`FromLit` coercions are non-recursive folds over finite lists. -/
theorem claim_C7_termination (fuel : Nat) (meta : Meta) (id : List String)
    (map : LitMap) (pre sep : String) (h : metaDepth meta ≤ fuel) :
    containsFuel fuel meta id = some (contains_attribute_impl meta id) ∧
    getValueFuel fuel meta id = some (get_attribute_value_impl meta id) ∧
    getMapFuel fuel map meta pre sep = some (get_attribute_map_impl map meta pre sep) :=
  ⟨containsFuel_complete fuel meta id h,
   getValueFuel_complete fuel meta id h,
   getMapFuel_complete fuel meta map pre sep h⟩

/-- Witness for C7 at a concrete annotation tree of depth 3 with the
budget equal to the depth. -/
theorem claim_C7_termination_witness :
    containsFuel 3
        (Meta.list "a" [NestedMeta.meta (Meta.list "b" [NestedMeta.meta (Meta.word "c")])]) ["a", "b", "c"]
      = some (contains_attribute_impl
          (Meta.list "a" [NestedMeta.meta (Meta.list "b" [NestedMeta.meta (Meta.word "c")])]) ["a", "b", "c"]) ∧
    getValueFuel 3
        (Meta.list "a" [NestedMeta.meta (Meta.list "b" [NestedMeta.meta (Meta.word "c")])]) ["a", "b", "c"]
      = some (get_attribute_value_impl
          (Meta.list "a" [NestedMeta.meta (Meta.list "b" [NestedMeta.meta (Meta.word "c")])]) ["a", "b", "c"]) ∧
    getMapFuel 3 []
        (Meta.list "a" [NestedMeta.meta (Meta.list "b" [NestedMeta.meta (Meta.word "c")])])
        "" "."
      = some (get_attribute_map_impl []
          (Meta.list "a" [NestedMeta.meta (Meta.list "b" [NestedMeta.meta (Meta.word "c")])])
          "" ".") :=
  claim_C7_termination 3
    (Meta.list "a" [NestedMeta.meta (Meta.list "b" [NestedMeta.meta (Meta.word "c")])]) ["a", "b", "c"] [] "" "." (by decide)

theorem contains_attribute_cons (a : Attribute) (l : List Attribute)
    (id : List String) :
    contains_attribute (a :: l) id =
      ((if a.style = AttrStyle.outer then
          match a.meta with
          | some meta => contains_attribute_impl meta id
          | none => false
        else false) || contains_attribute l id) := rfl

theorem attrsMatchedLits_cons (a : Attribute) (l : List Attribute)
    (id : List String) :
    attrsMatchedLits (a :: l) id =
      ((if a.style = AttrStyle.outer then
          match a.meta with
          | some meta => matchedLits meta id
          | none => []
        else []) ++ attrsMatchedLits l id) := rfl

theorem attrsEntries_cons (a : Attribute) (l : List Attribute) (sep : String) :
    attrsEntries (a :: l) sep =
      ((if a.style = AttrStyle.outer then
          match a.meta with
          | some meta => metaEntries meta "" sep
          | none => []
        else []) ++ attrsEntries l sep) := rfl

theorem contains_attribute_append (xs ys : List Attribute) (id : List String) :
    contains_attribute (xs ++ ys) id =
      (contains_attribute xs id || contains_attribute ys id) := by
  induction xs with
  | nil => rfl
  | cons a t ih =>
    rw [List.cons_append, contains_attribute_cons, contains_attribute_cons, ih,
      Bool.or_assoc]

theorem attrsMatchedLits_append (xs ys : List Attribute) (id : List String) :
    attrsMatchedLits (xs ++ ys) id =
      attrsMatchedLits xs id ++ attrsMatchedLits ys id := by
  induction xs with
  | nil => rfl
  | cons a t ih =>
    rw [List.cons_append, attrsMatchedLits_cons, attrsMatchedLits_cons, ih,
      List.append_assoc]

theorem attrsEntries_append (xs ys : List Attribute) (sep : String) :
    attrsEntries (xs ++ ys) sep = attrsEntries xs sep ++ attrsEntries ys sep := by
  induction xs with
  | nil => rfl
  | cons a t ih =>
    rw [List.cons_append, attrsEntries_cons, attrsEntries_cons, ih,
      List.append_assoc]

theorem contains_attribute_bad (bad : Attribute) (id : List String)
    (h : bad.style ≠ AttrStyle.outer ∨ bad.meta = none) :
    contains_attribute [bad] id = false := by
  rw [contains_attribute_cons]
  rcases h with h | h
  · rw [if_neg h]
    rfl
  · by_cases hs : bad.style = AttrStyle.outer
    · rw [if_pos hs, h]
      rfl
    · rw [if_neg hs]
      rfl

theorem attrsMatchedLits_bad (bad : Attribute) (id : List String)
    (h : bad.style ≠ AttrStyle.outer ∨ bad.meta = none) :
    attrsMatchedLits [bad] id = [] := by
  rw [attrsMatchedLits_cons]
  rcases h with h | h
  · rw [if_neg h]
    rfl
  · by_cases hs : bad.style = AttrStyle.outer
    · rw [if_pos hs, h]
      rfl
    · rw [if_neg hs]
      rfl

theorem attrsEntries_bad (bad : Attribute) (sep : String)
    (h : bad.style ≠ AttrStyle.outer ∨ bad.meta = none) :
    attrsEntries [bad] sep = [] := by
  rw [attrsEntries_cons]
  rcases h with h | h
  · rw [if_neg h]
    rfl
  · by_cases hs : bad.style = AttrStyle.outer
    · rw [if_pos hs, h]
      rfl
    · rw [if_neg hs]
      rfl

/-- **C10** (confirmed): an inner-style attribute, or one whose meta
cannot be interpreted, never affects any of the three public query
functions: removing such an attribute from anywhere in the input leaves
every result unchanged. -/
theorem claim_C10_irrelevant_attributes (attrs₁ attrs₂ : List Attribute)
    (bad : Attribute) (id : List String) (sep : String)
    (h : bad.style ≠ AttrStyle.outer ∨ bad.meta = none) :
    contains_attribute (attrs₁ ++ bad :: attrs₂) id
      = contains_attribute (attrs₁ ++ attrs₂) id ∧
    get_attribute_value (attrs₁ ++ bad :: attrs₂) id
      = get_attribute_value (attrs₁ ++ attrs₂) id ∧
    get_attribute_map (attrs₁ ++ bad :: attrs₂) sep
      = get_attribute_map (attrs₁ ++ attrs₂) sep := by
  have hsplit : attrs₁ ++ bad :: attrs₂ = attrs₁ ++ ([bad] ++ attrs₂) := rfl
  refine ⟨?_, ?_, ?_⟩
  · rw [hsplit, contains_attribute_append, contains_attribute_append,
      contains_attribute_append, contains_attribute_bad bad id h, Bool.false_or]
  · rw [get_attribute_value_eq_head, get_attribute_value_eq_head, hsplit,
      attrsMatchedLits_append, attrsMatchedLits_append, attrsMatchedLits_append,
      attrsMatchedLits_bad bad id h, List.nil_append]
  · rw [get_attribute_map_eq_processEntries, get_attribute_map_eq_processEntries,
      hsplit, attrsEntries_append, attrsEntries_append, attrsEntries_append,
      attrsEntries_bad bad sep h, List.nil_append]

/-- Witness for C10: an inner attribute and an uninterpretable one are
both ignored. -/
theorem claim_C10_irrelevant_attributes_witness :
    ( contains_attribute [Attribute.mk AttrStyle.outer (some (Meta.word "a")),
       Attribute.mk AttrStyle.inner (some (Meta.word "b"))] ["b"]
      = contains_attribute [Attribute.mk AttrStyle.outer (some (Meta.word "a"))] ["b"]) ∧
    (get_attribute_value [Attribute.mk AttrStyle.outer (some (Meta.nameValue "a" (Lit.str "v"))),
       Attribute.mk AttrStyle.outer none] ["a"]
      = get_attribute_value [Attribute.mk AttrStyle.outer (some (Meta.nameValue "a" (Lit.str "v")))] ["a"]) :=
  ⟨(claim_C10_irrelevant_attributes [Attribute.mk AttrStyle.outer (some (Meta.word "a"))] []
      (Attribute.mk AttrStyle.inner (some (Meta.word "b"))) ["b"] "."
      (Or.inl (by decide))).1,
   (claim_C10_irrelevant_attributes [Attribute.mk AttrStyle.outer (some (Meta.nameValue "a" (Lit.str "v")))] []
      (Attribute.mk AttrStyle.outer none) ["a"] "."
      (Or.inr rfl)).2.1⟩

end SynUtil
